import Mathlib

/-!
Verification of the graph-analysis core of `ds210_final_project`
(`src/network.rs`, `src/analysis.rs`).

The Rust `Graph` stores a `HashMap<usize, Vec<usize>>` adjacency map.  We
embed it as an association list with (for well-formed values, as a `HashMap`
guarantees) pairwise-distinct keys.  `usize` values are embedded as `Nat`,
with `usize::MAX` as the explicit constant `USIZE_MAX`; an indexing panic is
embedded as `Option.none`.  `f64` similarity scores are embedded as exact
rationals `ℚ` — every score the code produces is a quotient of small
naturals, and rounding to `f64` is monotone, so order/equality facts proved
over `ℚ` reflect the source's comparisons.
-/

namespace DS210

def USIZE_MAX : Nat := 2 ^ 64 - 1

/-- `network.rs::Graph`: adjacency map from node id to neighbor list. -/
structure Graph where
  adj_list : List (Nat × List Nat)
deriving DecidableEq

/-- `Graph::new()` — the empty graph. -/
def Graph.new : Graph := ⟨[]⟩

/-- `HashMap::entry(k).or_default().push(x)` on an association list:
append `x` to the list stored at the first entry with key `k`, inserting a
fresh entry when `k` is absent. -/
def pushAt : List (Nat × List Nat) → Nat → Nat → List (Nat × List Nat)
  | [], k, x => [(k, [x])]
  | (a, ns) :: rest, k, x =>
    if a = k then (a, ns ++ [x]) :: rest else (a, ns) :: pushAt rest k x

/-- `Graph::add_edge(u, v)`: push `v` onto `u`'s list, then `u` onto `v`'s. -/
def Graph.add_edge (g : Graph) (u v : Nat) : Graph :=
  ⟨pushAt (pushAt g.adj_list u v) v u⟩

/-- `HashMap::get(&k)` on the adjacency map. -/
def Graph.get (g : Graph) (k : Nat) : Option (List Nat) :=
  (g.adj_list.find? (fun p => p.1 = k)).map (fun p => p.2)

/-- The neighbor list of `k`, empty when `k` is absent (BFS's
`if let Some(neighbors) = graph.adj_list.get(&current)` skip). -/
def Graph.neighbors (g : Graph) (k : Nat) : List Nat :=
  (g.get k).getD []

/-- `Graph::degree(node)`: length of the neighbor list, 0 when absent. -/
def Graph.degree (g : Graph) (node : Nat) : Nat :=
  (g.neighbors node).length

/-- `Graph::num_nodes()`: number of keys of the adjacency map. -/
def Graph.num_nodes (g : Graph) : Nat :=
  g.adj_list.length

/-- The keys of the adjacency map (a `HashMap` iteration order). -/
def Graph.keys (g : Graph) : List Nat :=
  g.adj_list.map Prod.fst

/-- Every node id occurring in the graph: keys and neighbor entries. -/
def Graph.allIds (g : Graph) : List Nat :=
  (g.adj_list.map (fun p => p.1 :: p.2)).flatten

/-- The `HashMap` representation invariant: keys are pairwise distinct. -/
def Graph.WF (g : Graph) : Prop :=
  g.keys.Nodup

instance (g : Graph) : Decidable g.WF := by
  unfold Graph.WF; infer_instance

/-- Build a graph by `add_edge`-ing each pair onto the empty graph. -/
def buildGraph (edges : List (Nat × Nat)) : Graph :=
  edges.foldl (fun g p => g.add_edge p.1 p.2) Graph.new

-- `analysis.rs` ------------------------------------------------------------

/-- `analysis.rs::jaccard_similarity`: neighbor lists are collapsed to sets;
returns `|A ∩ B| / |A ∪ B|`, with 0 when either node is absent or the union
is empty.  `f64` is embedded as `ℚ` (the division is exact here). -/
def jaccard_similarity (g : Graph) (a b : Nat) : ℚ :=
  match g.get a with
  | none => 0
  | some neighbors_a =>
    match g.get b with
    | none => 0
    | some neighbors_b =>
      let set_a := neighbors_a.toFinset
      let set_b := neighbors_b.toFinset
      let intersection := (set_a ∩ set_b).card
      let union := (set_a ∪ set_b).card
      if union = 0 then 0 else (intersection : ℚ) / (union : ℚ)

/-- The descending-score comparison used by
`similarities.sort_by(|a, b| b.1.partial_cmp(&a.1).unwrap())`. -/
def simBy (p q : Nat × ℚ) : Prop := q.2 ≤ p.2

instance : DecidableRel simBy := fun p q => inferInstanceAs (Decidable (q.2 ≤ p.2))

instance : IsTotal (Nat × ℚ) simBy := ⟨fun p q => le_total q.2 p.2⟩

instance : IsTrans (Nat × ℚ) simBy := ⟨fun _ _ _ h h' => le_trans h' h⟩

/-- `analysis.rs::find_top_jaccard_similarities`, embedded as the list of
`(node, score)` lines it prints: every key other than `target` scored
against `target`, sorted descending by score (a stable sort, as in Rust),
truncated to the first `top_n`. -/
def find_top_jaccard_similarities (g : Graph) (target : Nat) (top_n : Nat) :
    List (Nat × ℚ) :=
  let similarities :=
    (g.keys.filter (fun node => node ≠ target)).map
      (fun node => (node, jaccard_similarity g target node))
  (List.insertionSort simBy similarities).take top_n

/-- The inner `for j in (i+1)..nodes.len()` loop of
`find_most_similar_pair`, folded over the candidates after `a`. -/
def bestInner (g : Graph) (a : Nat) (rest : List Nat)
    (acc : (Nat × Nat) × ℚ) : (Nat × Nat) × ℚ :=
  rest.foldl
    (fun acc b =>
      let score := jaccard_similarity g a b
      if acc.2 < score then ((a, b), score) else acc)
    acc

/-- The outer `for i in 0..nodes.len()` loop of `find_most_similar_pair`. -/
def bestOuter (g : Graph) : List Nat → (Nat × Nat) × ℚ → (Nat × Nat) × ℚ
  | [], acc => acc
  | a :: rest, acc => bestOuter g rest (bestInner g a rest acc)

/-- `analysis.rs::find_most_similar_pair`, embedded as the
`(best_pair, best_score)` it prints: scan all unordered key pairs, keeping
the first pair whose score strictly exceeds the best so far; the
accumulator starts at `((0, 0), 0.0)`. -/
def find_most_similar_pair (g : Graph) : (Nat × Nat) × ℚ :=
  bestOuter g g.keys ((0, 0), 0)

/-- The ordered pairs `(a, b)` with `a` strictly before `b` in `l` — the
pairs the double loop of `find_most_similar_pair` visits, in order. -/
def allPairs : List Nat → List (Nat × Nat)
  | [] => []
  | a :: rest => rest.map (fun b => (a, b)) ++ allPairs rest

/-- `analysis.rs::compute_degree_distribution`, embedded extensionally: one
`(degree, count)` bucket per distinct degree value among the nodes. -/
def compute_degree_distribution (g : Graph) : List (Nat × Nat) :=
  let degrees := g.adj_list.map (fun p => p.2.length)
  degrees.dedup.map (fun d => (d, (degrees.filter (fun x => x = d)).length))

/-- `degree_count.values().copied().max().unwrap_or(1)` in
`print_degree_distribution`. -/
def max_count (g : Graph) : Nat :=
  match (compute_degree_distribution g).map Prod.snd with
  | [] => 1
  | xs => xs.foldr Nat.max 0

/-- The ascending comparison `degrees.sort_by_key(|&(degree, _)| *degree)`. -/
def degAsc (p q : Nat × Nat) : Prop := p.1 ≤ q.1

instance : DecidableRel degAsc := fun p q => inferInstanceAs (Decidable (p.1 ≤ q.1))

instance : IsTotal (Nat × Nat) degAsc := ⟨fun p q => le_total p.1 q.1⟩

instance : IsTrans (Nat × Nat) degAsc := ⟨fun _ _ _ h h' => le_trans h h'⟩

/-- `analysis.rs::print_degree_distribution`, embedded as the list of
`(degree, bar length)` lines it prints: buckets sorted ascending by degree,
bar length `(50 * count) / max_count` (truncating division) clamped to a
minimum of 1 by `.max(1)`. -/
def print_degree_distribution (g : Graph) : List (Nat × Nat) :=
  let degrees := List.insertionSort degAsc (compute_degree_distribution g)
  degrees.map (fun p => (p.1, Nat.max ((50 * p.2) / max_count g) 1))

/-- Rounding division: `round (a / b)` on naturals, used to state the
spec's claimed `round(50 × count / max_count)` bar length. -/
def roundDiv (a b : Nat) : Nat := (2 * a + b) / (2 * b)

-- BFS (`analysis.rs::bfs_shortest_paths`) ----------------------------------

/-- The inner `for &neighbor in neighbors` loop of the BFS: processes the
remaining neighbors of `current`, threading the visited set, distance
vector and the queue still to be pushed onto.  `none` embeds the panic of
`distance[current]`/`distance[neighbor]` indexing out of bounds. -/
def bfsScan (current : Nat) :
    List Nat → List Nat → List Nat → List Nat →
    Option (List Nat × List Nat × List Nat)
  | [], visited, dist, queue => some (visited, dist, queue)
  | nb :: rest, visited, dist, queue =>
    if nb ∈ visited then bfsScan current rest visited dist queue
    else
      match dist.get? current with
      | none => none
      | some dcur =>
        if nb < dist.length then
          bfsScan current rest (nb :: visited) (dist.set nb (dcur + 1)) (queue ++ [nb])
        else none

/-- The `while let Some(current) = queue.pop_front()` loop of the BFS,
with an explicit fuel argument; `bfs_shortest_paths` supplies fuel that is
proven sufficient (`bfsLoop_spec`), so fuel exhaustion never
decides any result below. -/
def bfsLoop (g : Graph) : Nat → List Nat → List Nat → List Nat → Option (List Nat)
  | 0, _, _, _ => none
  | _ + 1, _, dist, [] => some dist
  | fuel + 1, visited, dist, current :: rest =>
    match bfsScan current (g.neighbors current) visited dist rest with
    | none => none
    | some (visited', dist', queue') => bfsLoop g fuel visited' dist' queue'

/-- `analysis.rs::bfs_shortest_paths`: distances initialised to
`usize::MAX`, `distance[start] = 0` (a panic — `none` — when `start` is not
a valid index), then the BFS loop. -/
def bfs_shortest_paths (g : Graph) (start : Nat) : Option (List Nat) :=
  let n := g.num_nodes
  if start < n then
    bfsLoop g (n + 1) [start] ((List.replicate n USIZE_MAX).set start 0) [start]
  else none

/-- `analysis.rs::average_shortest_path_length`: mean of the finite,
non-zero BFS distances, `0.0` when there are none; propagates the BFS
panic. -/
def average_shortest_path_length (g : Graph) (start : Nat) : Option ℚ :=
  (bfs_shortest_paths g start).map (fun dists =>
    let finite := dists.filter (fun d => d ≠ USIZE_MAX ∧ d ≠ 0)
    if finite.length = 0 then 0 else (finite.sum : ℚ) / (finite.length : ℚ))

-- Specification-side notions ----------------------------------------------

/-- There is a directed edge from `u` to `v`: `v` occurs in `u`'s neighbor
list. -/
def hasEdge (g : Graph) (u v : Nat) : Prop := v ∈ g.neighbors u

/-- `reaches g s v k`: there is a walk of exactly `k` edges from `s` to `v`
along adjacency entries.  The minimum such `k` is the BFS distance. -/
inductive reaches (g : Graph) (s : Nat) : Nat → Nat → Prop
  | refl : reaches g s s 0
  | step {u v k} : reaches g s u k → hasEdge g u v → reaches g s v (k + 1)

/-- `v` is reachable from `s`. -/
def reachable (g : Graph) (s v : Nat) : Prop := ∃ k, reaches g s v k

-- Adjacency-count symmetry (the `add_edge` invariant) -----------------------

/-- The undirectedness invariant: cross counts match, self-loop entries are
even. -/
def symCounts (g : Graph) : Prop :=
  ∀ u v : Nat,
    (u ≠ v → ((g.neighbors u).count v = (g.neighbors v).count u)) ∧
    Even ((g.neighbors u).count u)

-- `find_most_similar_pair` lemmas ------------------------------------------

/-- One step of the pair scan: accept the new pair iff its score strictly
exceeds the best so far. -/
def stepPair (g : Graph) (acc : (Nat × Nat) × ℚ) (p : Nat × Nat) : (Nat × Nat) × ℚ :=
  if acc.2 < jaccard_similarity g p.1 p.2 then (p, jaccard_similarity g p.1 p.2) else acc

-- BFS invariants ------------------------------------------------------------

/-- Invariant of the BFS `while` loop, between iterations. -/
structure BfsInv (g : Graph) (start n : Nat) (visited dist queue : List Nat) : Prop where
  hlen : dist.length = n
  hvnd : visited.Nodup
  hqnd : queue.Nodup
  hqv : ∀ x, x ∈ queue → x ∈ visited
  hvn : ∀ v, v ∈ visited → v < n
  hstart : start ∈ visited
  hs0 : dist.getD start 0 = 0
  hsound : ∀ v, v ∈ visited →
    reaches g start v (dist.getD v 0) ∧ dist.getD v 0 < visited.length
  hmax : ∀ v, v ∉ visited → v < n → dist.getD v 0 = USIZE_MAX
  hsorted : queue.Pairwise (fun a b => dist.getD a 0 ≤ dist.getD b 0)
  hspread : ∀ a, a ∈ queue → ∀ b, b ∈ queue → dist.getD b 0 ≤ dist.getD a 0 + 1
  hA : ∀ v, v ∈ visited → ∀ u, u ∈ queue → dist.getD v 0 ≤ dist.getD u 0 + 1
  hproc : ∀ u, u ∈ visited → u ∉ queue →
    ∀ v, hasEdge g u v → v ∈ visited ∧ dist.getD v 0 ≤ dist.getD u 0 + 1

/-- Invariant of the inner neighbor scan, while `current` (with recorded
distance `dcur`) is being processed; `queue` is the remaining old queue
plus whatever has been pushed so far. -/
structure ScanInv (g : Graph) (start n current dcur : Nat)
    (visited dist queue : List Nat) : Prop where
  hlen : dist.length = n
  hvnd : visited.Nodup
  hqnd : queue.Nodup
  hqv : ∀ x, x ∈ queue → x ∈ visited
  hvn : ∀ v, v ∈ visited → v < n
  hstart : start ∈ visited
  hs0 : dist.getD start 0 = 0
  hcur : current ∈ visited
  hdcur : dist.getD current 0 = dcur
  hcurnq : current ∉ queue
  hsound : ∀ v, v ∈ visited →
    reaches g start v (dist.getD v 0) ∧ dist.getD v 0 < visited.length
  hmax : ∀ v, v ∉ visited → v < n → dist.getD v 0 = USIZE_MAX
  hsorted : queue.Pairwise (fun a b => dist.getD a 0 ≤ dist.getD b 0)
  hqlb : ∀ u, u ∈ queue → dcur ≤ dist.getD u 0
  hqub : ∀ u, u ∈ queue → dist.getD u 0 ≤ dcur + 1
  hAcur : ∀ v, v ∈ visited → dist.getD v 0 ≤ dcur + 1
  hproc : ∀ u, u ∈ visited → u ∉ queue → u ≠ current →
    ∀ v, hasEdge g u v → v ∈ visited ∧ dist.getD v 0 ≤ dist.getD u 0 + 1

-- Theorems ----------------------------------------------------------------

-- Basic facts about `pushAt` / `add_edge` ---------------------------------

theorem pushAt_get_same (l : List (Nat × List Nat)) (k x : Nat) :
    (Graph.get ⟨pushAt l k x⟩ k) = some ((Graph.get ⟨l⟩ k).getD [] ++ [x]) := by
  induction l with
  | nil => simp [pushAt, Graph.get, List.find?]
  | cons p rest ih =>
    obtain ⟨a, ns⟩ := p
    by_cases h : a = k
    · subst h
      simp [pushAt, Graph.get, List.find?]
    · simp only [pushAt, if_neg h]
      simpa [Graph.get, List.find?_cons, h] using ih

theorem pushAt_get_other (l : List (Nat × List Nat)) (k x k' : Nat) (h : k' ≠ k) :
    (Graph.get ⟨pushAt l k x⟩ k') = Graph.get ⟨l⟩ k' := by
  have h2 : k ≠ k' := Ne.symm h
  induction l with
  | nil => simp [pushAt, Graph.get, List.find?, h2]
  | cons p rest ih =>
    obtain ⟨a, ns⟩ := p
    by_cases ha : a = k
    · subst ha
      simp [pushAt, Graph.get, List.find?_cons, h2]
    · simp only [pushAt, if_neg ha]
      by_cases ha' : a = k'
      · subst ha'
        simp [Graph.get, List.find?_cons]
      · simpa [Graph.get, List.find?_cons, ha'] using ih

theorem neighbors_pushAt_same (l : List (Nat × List Nat)) (k x : Nat) :
    Graph.neighbors ⟨pushAt l k x⟩ k = Graph.neighbors ⟨l⟩ k ++ [x] := by
  simp [Graph.neighbors, pushAt_get_same]

theorem neighbors_pushAt_other (l : List (Nat × List Nat)) (k x k' : Nat) (h : k' ≠ k) :
    Graph.neighbors ⟨pushAt l k x⟩ k' = Graph.neighbors ⟨l⟩ k' := by
  simp [Graph.neighbors, pushAt_get_other l k x k' h]

theorem add_edge_neighbors_fst (g : Graph) (u v : Nat) (huv : u ≠ v) :
    (g.add_edge u v).neighbors u = g.neighbors u ++ [v] := by
  unfold Graph.add_edge
  rw [neighbors_pushAt_other _ v u u huv, neighbors_pushAt_same]

theorem add_edge_neighbors_snd (g : Graph) (u v : Nat) (huv : u ≠ v) :
    (g.add_edge u v).neighbors v = g.neighbors v ++ [u] := by
  unfold Graph.add_edge
  rw [neighbors_pushAt_same]
  rw [neighbors_pushAt_other _ u v v (Ne.symm huv)]

theorem add_edge_neighbors_self (g : Graph) (u : Nat) :
    (g.add_edge u u).neighbors u = g.neighbors u ++ [u, u] := by
  unfold Graph.add_edge
  rw [neighbors_pushAt_same, neighbors_pushAt_same, List.append_assoc]
  rfl

theorem add_edge_neighbors_none (g : Graph) (u v x : Nat) (hxu : x ≠ u) (hxv : x ≠ v) :
    (g.add_edge u v).neighbors x = g.neighbors x := by
  unfold Graph.add_edge
  rw [neighbors_pushAt_other _ v u x hxv, neighbors_pushAt_other _ u v x hxu]

theorem degree_add_edge_fst (g : Graph) (u v : Nat) (huv : u ≠ v) :
    (g.add_edge u v).degree u = g.degree u + 1 := by
  simp [Graph.degree, add_edge_neighbors_fst g u v huv]

theorem degree_add_edge_snd (g : Graph) (u v : Nat) (huv : u ≠ v) :
    (g.add_edge u v).degree v = g.degree v + 1 := by
  simp [Graph.degree, add_edge_neighbors_snd g u v huv]

theorem degree_add_edge_self (g : Graph) (u : Nat) :
    (g.add_edge u u).degree u = g.degree u + 2 := by
  simp [Graph.degree, add_edge_neighbors_self g u]

-- Key-set facts for `add_edge` ---------------------------------------------

theorem pushAt_keys (l : List (Nat × List Nat)) (k x : Nat) :
    Graph.keys ⟨pushAt l k x⟩ =
      if k ∈ Graph.keys ⟨l⟩ then Graph.keys ⟨l⟩ else Graph.keys ⟨l⟩ ++ [k] := by
  induction l with
  | nil => simp [pushAt, Graph.keys]
  | cons p rest ih =>
    obtain ⟨a, ns⟩ := p
    by_cases h : a = k
    · subst h
      simp [pushAt, Graph.keys]
    · have h2 : k ≠ a := Ne.symm h
      simp only [pushAt, if_neg h, Graph.keys, List.map_cons, List.mem_cons]
      simp only [Graph.keys] at ih
      by_cases hm : k ∈ rest.map Prod.fst
      · simp [hm, h2, ih]
      · simp [hm, h2, ih]

theorem mem_keys_pushAt (l : List (Nat × List Nat)) (k x : Nat) :
    k ∈ Graph.keys ⟨pushAt l k x⟩ := by
  rw [pushAt_keys]
  by_cases h : k ∈ Graph.keys ⟨l⟩ <;> simp [h]

theorem mem_keys_pushAt_of_mem (l : List (Nat × List Nat)) (k x y : Nat)
    (h : y ∈ Graph.keys ⟨l⟩) : y ∈ Graph.keys ⟨pushAt l k x⟩ := by
  rw [pushAt_keys]
  by_cases hk : k ∈ Graph.keys ⟨l⟩ <;> simp [hk, h]

theorem mem_keys_add_edge_fst (g : Graph) (u v : Nat) :
    u ∈ (g.add_edge u v).keys := by
  unfold Graph.add_edge
  exact mem_keys_pushAt_of_mem _ v u u (mem_keys_pushAt _ u v)

theorem mem_keys_add_edge_snd (g : Graph) (u v : Nat) :
    v ∈ (g.add_edge u v).keys :=
  mem_keys_pushAt _ v u

-- Jaccard similarity lemmas -------------------------------------------------

theorem jaccard_symm (g : Graph) (a b : Nat) :
    jaccard_similarity g a b = jaccard_similarity g b a := by
  unfold jaccard_similarity
  cases ha : g.get a <;> cases hb : g.get b <;>
    simp [Finset.inter_comm, Finset.union_comm]

theorem jaccard_nonneg (g : Graph) (a b : Nat) : 0 ≤ jaccard_similarity g a b := by
  unfold jaccard_similarity
  cases g.get a with
  | none => exact le_refl 0
  | some la =>
    cases g.get b with
    | none => exact le_refl 0
    | some lb =>
      simp only []
      split
      · exact le_refl 0
      · positivity

theorem jaccard_le_one (g : Graph) (a b : Nat) : jaccard_similarity g a b ≤ 1 := by
  unfold jaccard_similarity
  cases ha : g.get a with
  | none => exact zero_le_one
  | some la =>
    cases hb : g.get b with
    | none => exact zero_le_one
    | some lb =>
      simp only []
      split
      · exact zero_le_one
      · rename_i hu
        rw [div_le_one (by positivity)]
        have hsub : la.toFinset ∩ lb.toFinset ⊆ la.toFinset ∪ lb.toFinset :=
          le_trans Finset.inter_subset_left Finset.subset_union_left
        exact_mod_cast Finset.card_le_card hsub

theorem jaccard_absent_fst (g : Graph) (a b : Nat) (h : g.get a = none) :
    jaccard_similarity g a b = 0 := by
  unfold jaccard_similarity
  rw [h]

theorem jaccard_absent_snd (g : Graph) (a b : Nat) (h : g.get b = none) :
    jaccard_similarity g a b = 0 := by
  unfold jaccard_similarity
  cases g.get a <;> rw [h]

theorem jaccard_no_neighbors (g : Graph) (a b : Nat)
    (ha : g.neighbors a = []) (hb : g.neighbors b = []) :
    jaccard_similarity g a b = 0 := by
  unfold jaccard_similarity
  cases ha' : g.get a with
  | none => rfl
  | some la =>
    cases hb' : g.get b with
    | none => rfl
    | some lb =>
      have hla : la = [] := by simpa [Graph.neighbors, ha'] using ha
      have hlb : lb = [] := by simpa [Graph.neighbors, hb'] using hb
      subst hla hlb
      simp

theorem symCounts_new : symCounts Graph.new := by
  intro u v
  constructor
  · intro _
    rfl
  · simp [Graph.new, Graph.neighbors, Graph.get, List.find?]

theorem count_single_same (x : Nat) : List.count x [x] = 1 := by
  simp

theorem count_single_ne {x y : Nat} (h : y ≠ x) : List.count x [y] = 0 := by
  simp [List.count_cons, h]

theorem count_pair_same (x : Nat) : List.count x [x, x] = 2 := by
  simp [List.count_cons]

theorem count_pair_ne {x y : Nat} (h : y ≠ x) : List.count x [y, y] = 0 := by
  simp [List.count_cons, h]

theorem symCounts_add_edge (g : Graph) (a b : Nat) (h : symCounts g) :
    symCounts (g.add_edge a b) := by
  intro u v
  by_cases hab : a = b
  · subst hab
    constructor
    · intro huv
      by_cases hua : u = a
      · subst hua
        have hva : v ≠ u := Ne.symm huv
        rw [add_edge_neighbors_self, add_edge_neighbors_none g u u v hva hva]
        rw [List.count_append, count_pair_ne huv]
        simpa using (h u v).1 huv
      · by_cases hva : v = a
        · subst hva
          rw [add_edge_neighbors_self, add_edge_neighbors_none g v v u
            (fun hc => hua hc) (fun hc => hua hc)]
          rw [List.count_append, count_pair_ne (Ne.symm huv)]
          simpa using (h u v).1 huv
        · rw [add_edge_neighbors_none g a a u hua hua,
            add_edge_neighbors_none g a a v hva hva]
          exact (h u v).1 huv
    · by_cases hua : u = a
      · subst hua
        rw [add_edge_neighbors_self, List.count_append, count_pair_same]
        exact ((h u u).2).add (by decide)
      · rw [add_edge_neighbors_none g a a u hua hua]
        exact (h u u).2
  · constructor
    · intro huv
      by_cases hua : u = a
      · subst hua
        by_cases hvb : v = b
        · subst hvb
          rw [add_edge_neighbors_fst g u v hab, add_edge_neighbors_snd g u v hab]
          rw [List.count_append, List.count_append, count_single_same,
            count_single_same, (h u v).1 huv]
        · have hva : v ≠ u := Ne.symm huv
          rw [add_edge_neighbors_fst g u b hab,
            add_edge_neighbors_none g u b v hva hvb]
          rw [List.count_append, count_single_ne (fun hc => hvb hc.symm)]
          simpa using (h u v).1 huv
      · by_cases hub : u = b
        · subst hub
          by_cases hva : v = a
          · subst hva
            rw [add_edge_neighbors_snd g v u hab, add_edge_neighbors_fst g v u hab]
            rw [List.count_append, List.count_append, count_single_same,
              count_single_same, (h u v).1 huv]
          · have hvu : v ≠ u := Ne.symm huv
            rw [add_edge_neighbors_snd g a u hab,
              add_edge_neighbors_none g a u v hva hvu]
            rw [List.count_append, count_single_ne (fun hc => hva hc.symm)]
            simpa using (h u v).1 huv
        · rw [add_edge_neighbors_none g a b u hua hub]
          by_cases hva : v = a
          · subst hva
            rw [add_edge_neighbors_fst g v b hab]
            rw [List.count_append, count_single_ne (fun hc => hub hc.symm)]
            simpa using (h u v).1 huv
          · by_cases hvb : v = b
            · subst hvb
              rw [add_edge_neighbors_snd g a v hab]
              rw [List.count_append, count_single_ne (fun hc => hua hc.symm)]
              simpa using (h u v).1 huv
            · rw [add_edge_neighbors_none g a b v hva hvb]
              exact (h u v).1 huv
    · by_cases hua : u = a
      · subst hua
        rw [add_edge_neighbors_fst g u b hab, List.count_append,
          count_single_ne (fun hc => hab hc.symm)]
        simpa using (h u u).2
      · by_cases hub : u = b
        · subst hub
          rw [add_edge_neighbors_snd g a u hab, List.count_append,
            count_single_ne (fun hc => hua hc.symm)]
          simpa using (h u u).2
        · rw [add_edge_neighbors_none g a b u hua hub]
          exact (h u u).2

theorem symCounts_buildAux (edges : List (Nat × Nat)) (g : Graph) (h : symCounts g) :
    symCounts (edges.foldl (fun g p => g.add_edge p.1 p.2) g) := by
  induction edges generalizing g with
  | nil => exact h
  | cons e rest ih =>
    exact ih (g.add_edge e.1 e.2) (symCounts_add_edge g e.1 e.2 h)

theorem symCounts_buildGraph (edges : List (Nat × Nat)) :
    symCounts (buildGraph edges) :=
  symCounts_buildAux edges Graph.new symCounts_new

-- Claim theorems -----------------------------------------------------------


/-- C6: for every graph and every pair of node identifiers `a`, `b`,
`jaccard_similarity g a b = jaccard_similarity g b a`. -/
theorem claim_C6_jaccard_symmetric (g : Graph) (a b : Nat) :
    jaccard_similarity g a b = jaccard_similarity g b a :=
  jaccard_symm g a b

/-- C7: `jaccard_similarity` always lies in `[0, 1]`, and it is exactly `0`
whenever either node is absent from the graph or both nodes have no
neighbors. -/
theorem claim_C7_jaccard_range_and_zero (g : Graph) (a b : Nat) :
    0 ≤ jaccard_similarity g a b ∧ jaccard_similarity g a b ≤ 1 ∧
      ((g.get a = none ∨ g.get b = none ∨
          (g.neighbors a = [] ∧ g.neighbors b = [])) →
        jaccard_similarity g a b = 0) := by
  refine ⟨jaccard_nonneg g a b, jaccard_le_one g a b, ?_⟩
  rintro (h | h | ⟨ha, hb⟩)
  · exact jaccard_absent_fst g a b h
  · exact jaccard_absent_snd g a b h
  · exact jaccard_no_neighbors g a b ha hb

theorem claim_C7_witness :
    jaccard_similarity (buildGraph [(1, 2)]) 5 1 = 0 :=
  (claim_C7_jaccard_range_and_zero (buildGraph [(1, 2)]) 5 1).2.2
    (Or.inl (by decide))

/-- C5 as stated is false at `u = v`: a self-loop insertion increases the
node's degree by 2, not by exactly 1. -/
theorem claim_C5_counterexample :
    Graph.new.degree 0 = 0 ∧ (Graph.new.add_edge 0 0).degree 0 = 2 := by
  decide

/-- C5 (amended): `add_edge u v` appends `v` to `u`'s neighbor sequence and
`u` to `v`'s (creating absent keys), leaves all other nodes untouched, and
increases `degree u` and `degree v` by exactly 1 each when `u ≠ v`; when
`u = v`, both appends land in the same sequence and the degree grows
by exactly 2. -/
theorem claim_C5_amended_add_edge (g : Graph) (u v : Nat) :
    (u ≠ v →
      (g.add_edge u v).neighbors u = g.neighbors u ++ [v] ∧
      (g.add_edge u v).neighbors v = g.neighbors v ++ [u] ∧
      (g.add_edge u v).degree u = g.degree u + 1 ∧
      (g.add_edge u v).degree v = g.degree v + 1) ∧
    ((g.add_edge u u).neighbors u = g.neighbors u ++ [u, u] ∧
      (g.add_edge u u).degree u = g.degree u + 2) ∧
    u ∈ (g.add_edge u v).keys ∧ v ∈ (g.add_edge u v).keys ∧
    (∀ x, x ≠ u → x ≠ v → (g.add_edge u v).neighbors x = g.neighbors x) := by
  refine ⟨fun huv => ⟨add_edge_neighbors_fst g u v huv,
      add_edge_neighbors_snd g u v huv,
      degree_add_edge_fst g u v huv, degree_add_edge_snd g u v huv⟩,
    ⟨add_edge_neighbors_self g u, degree_add_edge_self g u⟩,
    mem_keys_add_edge_fst g u v, mem_keys_add_edge_snd g u v,
    fun x hxu hxv => add_edge_neighbors_none g u v x hxu hxv⟩

theorem claim_C5_amended_witness :
    (Graph.new.add_edge 1 2).degree 1 = Graph.new.degree 1 + 1 :=
  ((claim_C5_amended_add_edge Graph.new 1 2).1 (by decide)).2.2.1

/-- C10: every graph built from `new` by a sequence of `add_edge` calls has
a symmetric adjacency multiset: for distinct `u`, `v` the number of
occurrences of `v` in `u`'s neighbor sequence equals the number of
occurrences of `u` in `v`'s, and self-loop entries occur an even number of
times. -/
theorem claim_C10_symmetric_multiset (edges : List (Nat × Nat)) (u v : Nat) :
    (u ≠ v → ((buildGraph edges).neighbors u).count v
      = ((buildGraph edges).neighbors v).count u) ∧
    Even (((buildGraph edges).neighbors u).count u) :=
  symCounts_buildGraph edges u v

theorem claim_C10_witness :
    ((buildGraph [(1, 2), (1, 2), (3, 1)]).neighbors 1).count 2
      = ((buildGraph [(1, 2), (1, 2), (3, 1)]).neighbors 2).count 1 :=
  (claim_C10_symmetric_multiset [(1, 2), (1, 2), (3, 1)] 1 2).1 (by decide)

/-- C8: the list `find_top_jaccard_similarities` prints is sorted
non-increasing by similarity score, contains no entry for the target node,
and has length `min k` (number of node keys other than the target). -/
theorem claim_C8_top_k (g : Graph) (target k : Nat) (hwf : g.WF) :
    (find_top_jaccard_similarities g target k).Pairwise (fun p q => q.2 ≤ p.2) ∧
    (∀ p ∈ find_top_jaccard_similarities g target k, p.1 ≠ target) ∧
    (find_top_jaccard_similarities g target k).length
      = min k (g.keys.toFinset.erase target).card := by
  refine ⟨?_, ?_, ?_⟩
  · exact (List.sorted_insertionSort simBy _).sublist (List.take_sublist _ _)
  · intro p hp
    have hp' : p ∈ List.insertionSort simBy
        ((g.keys.filter (fun node => node ≠ target)).map
          (fun node => (node, jaccard_similarity g target node))) :=
      List.mem_of_mem_take hp
    have hp2 := (List.perm_insertionSort simBy _).mem_iff.mp hp'
    obtain ⟨node, hnode, rfl⟩ := List.mem_map.mp hp2
    have := List.mem_filter.mp hnode
    simpa using this.2
  · rw [find_top_jaccard_similarities]
    rw [List.length_take, (List.perm_insertionSort simBy _).length_eq,
      List.length_map]
    congr 1
    have hnd : (g.keys.filter (fun node => node ≠ target)).Nodup :=
      hwf.filter _
    rw [← List.toFinset_card_of_nodup hnd, List.toFinset_filter,
      Finset.erase_eq]
    congr 1
    ext x
    simp

theorem claim_C8_witness :
    (find_top_jaccard_similarities (buildGraph [(0, 1), (1, 2), (2, 0)]) 0 2).length
      = min 2 ((buildGraph [(0, 1), (1, 2), (2, 0)]).keys.toFinset.erase 0).card :=
  (claim_C8_top_k (buildGraph [(0, 1), (1, 2), (2, 0)]) 0 2 (by decide)).2.2

/-- C9 as stated is false: the bar length uses truncating integer division
`(50 * count) / max_count`, not rounding.  In the star graph `K(1,3)` the
bucket of degree 3 has count 1 with `max_count = 3`; the claimed
`round(50/3) = 17` but the printed bar has 16 characters. -/
theorem claim_C9_counterexample :
    (3, 16) ∈ print_degree_distribution (buildGraph [(0, 1), (0, 2), (0, 3)]) ∧
    (3, Nat.max (roundDiv (50 * 1) (max_count (buildGraph [(0, 1), (0, 2), (0, 3)]))) 1)
      ∉ print_degree_distribution (buildGraph [(0, 1), (0, 2), (0, 3)]) ∧
    (3, 1) ∈ compute_degree_distribution (buildGraph [(0, 1), (0, 2), (0, 3)]) ∧
    Nat.max (roundDiv (50 * 1) (max_count (buildGraph [(0, 1), (0, 2), (0, 3)]))) 1 = 17 := by
  decide

/-- C9 (amended): for every non-empty degree distribution the renderer
emits exactly one line per degree bucket, in strictly ascending degree
order, and the bar printed for the bucket `(d, count)` has length
`(50 * count) / max_count` — truncating division, not rounding — clamped
to a minimum of 1 character. -/
theorem claim_C9_amended_histogram (g : Graph)
    (_hne : compute_degree_distribution g ≠ []) :
    (print_degree_distribution g).Pairwise (fun p q => p.1 < q.1) ∧
    (print_degree_distribution g).length = (compute_degree_distribution g).length ∧
    ∀ p ∈ compute_degree_distribution g,
      (p.1, Nat.max ((50 * p.2) / max_count g) 1) ∈ print_degree_distribution g := by
  have hperm : List.Perm (List.insertionSort degAsc (compute_degree_distribution g))
      (compute_degree_distribution g) := List.perm_insertionSort _ _
  refine ⟨?_, ?_, ?_⟩
  · rw [print_degree_distribution]
    rw [List.pairwise_map]
    have hfst : (compute_degree_distribution g).map Prod.fst
        = (g.adj_list.map (fun p => p.2.length)).dedup := by
      rw [compute_degree_distribution, List.map_map]
      exact List.map_id _
    have hnodup : ((compute_degree_distribution g).map Prod.fst).Nodup := by
      rw [hfst]; exact List.nodup_dedup _
    have hnodup' : ((List.insertionSort degAsc (compute_degree_distribution g)).map
        Prod.fst).Nodup := ((hperm.map Prod.fst).nodup_iff).mpr hnodup
    have hne' : (List.insertionSort degAsc (compute_degree_distribution g)).Pairwise
        (fun p q => p.1 ≠ q.1) := List.pairwise_map.mp hnodup'
    have hle : (List.insertionSort degAsc (compute_degree_distribution g)).Pairwise
        degAsc := List.sorted_insertionSort _ _
    exact (hle.and hne').imp (fun h => lt_of_le_of_ne h.1 h.2)
  · rw [print_degree_distribution, List.length_map]
    exact hperm.length_eq
  · intro p hp
    rw [print_degree_distribution]
    exact List.mem_map_of_mem _ (hperm.mem_iff.mpr hp)

theorem claim_C9_witness :
    ((1 : Nat), Nat.max ((50 * 2) / max_count (buildGraph [(0, 1)])) 1)
      ∈ print_degree_distribution (buildGraph [(0, 1)]) :=
  (claim_C9_amended_histogram (buildGraph [(0, 1)]) (by decide)).2.2 (1, 2) (by decide)

theorem bestInner_eq_foldl (g : Graph) (a : Nat) (rest : List Nat)
    (acc : (Nat × Nat) × ℚ) :
    bestInner g a rest acc = (rest.map (fun b => (a, b))).foldl (stepPair g) acc := by
  rw [bestInner, List.foldl_map]
  rfl

theorem bestOuter_eq_foldl (g : Graph) (l : List Nat) (acc : (Nat × Nat) × ℚ) :
    bestOuter g l acc = (allPairs l).foldl (stepPair g) acc := by
  induction l generalizing acc with
  | nil => rfl
  | cons a rest ih =>
    rw [bestOuter, ih, allPairs, List.foldl_append, bestInner_eq_foldl]

theorem foldl_stepPair_mono (g : Graph) (L : List (Nat × Nat))
    (acc : (Nat × Nat) × ℚ) : acc.2 ≤ (L.foldl (stepPair g) acc).2 := by
  induction L generalizing acc with
  | nil => exact le_refl _
  | cons x rest ih =>
    refine le_trans ?_ (ih (stepPair g acc x))
    rw [stepPair]
    split
    · exact le_of_lt (by assumption)
    · exact le_refl _

theorem foldl_stepPair_max (g : Graph) (L : List (Nat × Nat))
    (acc : (Nat × Nat) × ℚ) :
    ∀ p ∈ L, jaccard_similarity g p.1 p.2 ≤ (L.foldl (stepPair g) acc).2 := by
  induction L generalizing acc with
  | nil => intro p hp; cases hp
  | cons x rest ih =>
    intro p hp
    rcases List.mem_cons.mp hp with rfl | hp'
    · refine le_trans ?_ (foldl_stepPair_mono g rest (stepPair g acc p))
      rw [stepPair]
      split
      · exact le_refl _
      · exact le_of_not_lt (by assumption)
    · exact ih (stepPair g acc x) p hp'

theorem foldl_stepPair_origin (g : Graph) (L : List (Nat × Nat))
    (acc : (Nat × Nat) × ℚ) :
    L.foldl (stepPair g) acc = acc ∨
    ∃ L1 p L2, L = L1 ++ p :: L2 ∧
      L.foldl (stepPair g) acc = (p, jaccard_similarity g p.1 p.2) ∧
      acc.2 < jaccard_similarity g p.1 p.2 ∧
      ∀ q ∈ L1, jaccard_similarity g q.1 q.2 < jaccard_similarity g p.1 p.2 := by
  induction L generalizing acc with
  | nil => exact Or.inl rfl
  | cons x rest ih =>
    by_cases hx : acc.2 < jaccard_similarity g x.1 x.2
    · have hstep : stepPair g acc x = (x, jaccard_similarity g x.1 x.2) := if_pos hx
      rcases ih (stepPair g acc x) with h | ⟨L1, p, L2, hsplit, hres, hlt, hall⟩
      · refine Or.inr ⟨[], x, rest, rfl, ?_, hx, by intro q hq; cases hq⟩
        rw [List.foldl_cons, h, hstep]
      · refine Or.inr ⟨x :: L1, p, L2, by rw [hsplit, List.cons_append], ?_, ?_, ?_⟩
        · rw [List.foldl_cons, hres]
        · rw [hstep] at hlt
          exact lt_trans hx hlt
        · intro q hq
          rcases List.mem_cons.mp hq with rfl | hq'
          · rw [hstep] at hlt
            exact hlt
          · exact hall q hq'
    · have hstep : stepPair g acc x = acc := if_neg hx
      rcases ih acc with h | ⟨L1, p, L2, hsplit, hres, hlt, hall⟩
      · exact Or.inl (by rw [List.foldl_cons, hstep, h])
      · refine Or.inr ⟨x :: L1, p, L2, by rw [hsplit, List.cons_append], ?_, hlt, ?_⟩
        · rw [List.foldl_cons, hstep, hres]
        · intro q hq
          rcases List.mem_cons.mp hq with rfl | hq'
          · exact lt_of_le_of_lt (le_of_not_lt hx) hlt
          · exact hall q hq'

theorem mem_allPairs {l : List Nat} {p : Nat × Nat} (h : p ∈ allPairs l) :
    p.1 ∈ l ∧ p.2 ∈ l := by
  induction l with
  | nil => cases h
  | cons x rest ih =>
    rw [allPairs, List.mem_append] at h
    rcases h with h | h
    · obtain ⟨c, hc, rfl⟩ := List.mem_map.mp h
      exact ⟨List.mem_cons_self x rest, List.mem_cons_of_mem x hc⟩
    · exact ⟨List.mem_cons_of_mem x (ih h).1, List.mem_cons_of_mem x (ih h).2⟩

theorem count_pairMap_fst_eq (x b : Nat) (l : List Nat) :
    (l.map (fun c => (x, c))).count (x, b) = l.count b := by
  induction l with
  | nil => rfl
  | cons c rest ih =>
    simp only [List.map_cons, List.count_cons, ih, beq_iff_eq, Prod.mk.injEq,
      true_and]

theorem count_pairMap_ne (a x b : Nat) (h : a ≠ x) (l : List Nat) :
    (l.map (fun c => (x, c))).count (a, b) = 0 := by
  rw [List.count_eq_zero]
  intro hmem
  obtain ⟨c, _, hc⟩ := List.mem_map.mp hmem
  exact h (congrArg Prod.fst hc.symm)

theorem count_allPairs_notMem_fst {l : List Nat} {a b : Nat} (h : a ∉ l) :
    (allPairs l).count (a, b) = 0 := by
  rw [List.count_eq_zero]
  intro hmem
  exact h (mem_allPairs hmem).1

theorem count_allPairs_notMem_snd {l : List Nat} {a b : Nat} (h : b ∉ l) :
    (allPairs l).count (a, b) = 0 := by
  rw [List.count_eq_zero]
  intro hmem
  exact h (mem_allPairs hmem).2

theorem allPairs_count_once {l : List Nat} (hnd : l.Nodup) {a b : Nat}
    (ha : a ∈ l) (hb : b ∈ l) (hab : a ≠ b) :
    (allPairs l).count (a, b) + (allPairs l).count (b, a) = 1 := by
  induction l with
  | nil => cases ha
  | cons x rest ih =>
    have hxrest : x ∉ rest := (List.nodup_cons.mp hnd).1
    have hndrest : rest.Nodup := (List.nodup_cons.mp hnd).2
    rw [allPairs]
    rcases List.mem_cons.mp ha with rfl | ha'
    · have hb' : b ∈ rest := by
        rcases List.mem_cons.mp hb with rfl | hb'
        · exact absurd rfl hab
        · exact hb'
      rw [List.count_append, List.count_append,
        count_pairMap_fst_eq, count_pairMap_ne b a a (Ne.symm hab),
        count_allPairs_notMem_fst hxrest, count_allPairs_notMem_snd hxrest,
        List.count_eq_one_of_mem hndrest hb']
    · rcases List.mem_cons.mp hb with rfl | hb'
      · rw [List.count_append, List.count_append,
          count_pairMap_ne a b b hab, count_pairMap_fst_eq,
          count_allPairs_notMem_snd hxrest, count_allPairs_notMem_fst hxrest,
          List.count_eq_one_of_mem hndrest ha']
      · have hax : a ≠ x := fun hc => hxrest (hc ▸ ha')
        have hbx : b ≠ x := fun hc => hxrest (hc ▸ hb')
        rw [List.count_append, List.count_append,
          count_pairMap_ne a x b hax, count_pairMap_ne b x a hbx]
        simpa using ih hndrest ha' hb'

theorem jaccard_eval (g : Graph) (a b : Nat) (la lb : List Nat) (i u : Nat)
    (ha : g.get a = some la) (hb : g.get b = some lb)
    (hi : (la.toFinset ∩ lb.toFinset).card = i)
    (hu : (la.toFinset ∪ lb.toFinset).card = u) (hu0 : u ≠ 0) :
    jaccard_similarity g a b = (i : ℚ) / (u : ℚ) := by
  rw [jaccard_similarity, ha, hb]
  simp only [hi, hu, if_neg hu0]

theorem allPairs_of_short {l : List Nat} (h : l.length ≤ 1) : allPairs l = [] := by
  match l with
  | [] => rfl
  | [x] => rfl
  | x :: y :: rest => simp at h

/-- C4 as stated is false: on the two-node graph built from `add_edge(1,2)`
every pair has similarity 0.0, so the strict `>` never fires and the
function returns the default `((0,0), 0.0)` — which is not a pair of
distinct node keys at all (node 0 does not exist) — although the graph has
two nodes and the pair (1,2) attains the highest score. -/
theorem claim_C4_counterexample :
    find_most_similar_pair (buildGraph [(1, 2)]) = ((0, 0), 0) ∧
    (buildGraph [(1, 2)]).num_nodes = 2 ∧
    allPairs (buildGraph [(1, 2)]).keys = [(1, 2)] ∧
    (0, 0) ∉ allPairs (buildGraph [(1, 2)]).keys ∧
    0 ∉ (buildGraph [(1, 2)]).keys := by
  have hj : jaccard_similarity (buildGraph [(1, 2)]) 1 2 = 0 := by
    rw [jaccard_eval (buildGraph [(1, 2)]) 1 2 [2] [1] 0 2 (by decide) (by decide)
      (by decide) (by decide) (by decide)]
    norm_num
  refine ⟨?_, by decide, by decide, by decide, by decide⟩
  rw [find_most_similar_pair, bestOuter_eq_foldl,
    show (buildGraph [(1, 2)]).keys = [1, 2] from by decide]
  rw [show allPairs [1, 2] = [(1, 2)] from rfl, List.foldl_cons, List.foldl_nil,
    stepPair, hj]
  norm_num

/-- C4 (amended): the double loop visits every unordered pair of distinct
node keys exactly once; the result score is an upper bound of all pair
scores; on an empty or single-node graph the default `((0,0), 0.0)` is
returned; and the result is either that default (in particular whenever no
pair has a strictly positive score) or the first-seen pair attaining the
strictly highest score, ties won by the earlier pair. -/
theorem claim_C4_most_similar_pair (g : Graph) (hwf : g.WF) :
    (∀ a b, a ∈ g.keys → b ∈ g.keys → a ≠ b →
      (allPairs g.keys).count (a, b) + (allPairs g.keys).count (b, a) = 1) ∧
    (∀ p ∈ allPairs g.keys,
      jaccard_similarity g p.1 p.2 ≤ (find_most_similar_pair g).2) ∧
    (g.num_nodes ≤ 1 → find_most_similar_pair g = ((0, 0), 0)) ∧
    (find_most_similar_pair g = ((0, 0), 0) ∨
      ∃ L1 p L2, allPairs g.keys = L1 ++ p :: L2 ∧
        find_most_similar_pair g = (p, jaccard_similarity g p.1 p.2) ∧
        0 < jaccard_similarity g p.1 p.2 ∧
        ∀ q ∈ L1, jaccard_similarity g q.1 q.2 < jaccard_similarity g p.1 p.2) := by
  refine ⟨fun a b ha hb hab => allPairs_count_once hwf ha hb hab, ?_, ?_, ?_⟩
  · rw [find_most_similar_pair, bestOuter_eq_foldl]
    exact foldl_stepPair_max g (allPairs g.keys) ((0, 0), 0)
  · intro hn
    have hlen : g.keys.length ≤ 1 := by
      rw [Graph.keys, List.length_map]
      exact hn
    rw [find_most_similar_pair, bestOuter_eq_foldl, allPairs_of_short hlen]
    rfl
  · rw [find_most_similar_pair, bestOuter_eq_foldl]
    rcases foldl_stepPair_origin g (allPairs g.keys) ((0, 0), 0) with h | hsp
    · exact Or.inl h
    · exact Or.inr hsp

theorem claim_C4_witness :
    (allPairs (buildGraph [(0, 1), (1, 2), (2, 0)]).keys).count (0, 1)
      + (allPairs (buildGraph [(0, 1), (1, 2), (2, 0)]).keys).count (1, 0) = 1 :=
  (claim_C4_most_similar_pair (buildGraph [(0, 1), (1, 2), (2, 0)])
    (by decide)).1 0 1 (by decide) (by decide) (by decide)

-- Small list helpers --------------------------------------------------------

theorem getD_set_self (l : List Nat) (i x : Nat) (h : i < l.length) :
    (l.set i x).getD i 0 = x := by
  simp [List.getD_eq_getElem?_getD, List.getElem?_set_self, h]

theorem getD_set_ne (l : List Nat) (i j x : Nat) (h : i ≠ j) :
    (l.set i x).getD j 0 = l.getD j 0 := by
  simp [List.getD_eq_getElem?_getD, List.getElem?_set_ne h]

theorem getD_replicate_lt (c n i : Nat) (h : i < n) :
    (List.replicate n c).getD i 0 = c := by
  simp [List.getD_eq_getElem?_getD, List.getElem?_replicate, h]

theorem get?_eq_some_getD (l : List Nat) (i : Nat) (h : i < l.length) :
    l.get? i = some (l.getD i 0) := by
  rw [List.get?_eq_getElem?]
  rw [List.getElem?_eq_getElem h]
  rw [List.getD_eq_getElem?_getD, List.getElem?_eq_getElem h]
  rfl

theorem nodup_bounded_length (l : List Nat) (n : Nat) (hnd : l.Nodup)
    (hlt : ∀ v, v ∈ l → v < n) : l.length ≤ n := by
  rw [← List.toFinset_card_of_nodup hnd]
  have hsub : l.toFinset ⊆ Finset.range n := fun x hx =>
    Finset.mem_range.mpr (hlt x (List.mem_toFinset.mp hx))
  simpa using Finset.card_le_card hsub

theorem mem_allIds_of_neighbor (g : Graph) (u x : Nat)
    (h : x ∈ g.neighbors u) : x ∈ g.allIds := by
  rw [Graph.neighbors, Graph.get] at h
  cases hf : g.adj_list.find? (fun p => p.1 = u) with
  | none => rw [hf] at h; cases h
  | some pr =>
    rw [hf] at h
    have hpr : pr ∈ g.adj_list := List.mem_of_find?_eq_some hf
    rw [Graph.allIds]
    exact List.mem_flatten.mpr ⟨pr.1 :: pr.2,
      List.mem_map_of_mem _ hpr, List.mem_cons_of_mem _ h⟩

theorem mem_allIds_of_key (g : Graph) (u : Nat) (h : u ∈ g.keys) : u ∈ g.allIds := by
  rw [Graph.keys] at h
  obtain ⟨pr, hpr, rfl⟩ := List.mem_map.mp h
  rw [Graph.allIds]
  exact List.mem_flatten.mpr ⟨pr.1 :: pr.2, List.mem_map_of_mem _ hpr,
    List.mem_cons_self _ _⟩

theorem bfsScan_spec (g : Graph) (start n current dcur : Nat) (ns : List Nat) :
    ∀ visited dist queue,
      ScanInv g start n current dcur visited dist queue →
      (∀ x, x ∈ ns → x ∈ g.neighbors current) →
      (∀ x, x ∈ ns → x < n) →
      ∃ visited' dist' queue',
        bfsScan current ns visited dist queue = some (visited', dist', queue') ∧
        ScanInv g start n current dcur visited' dist' queue' ∧
        (∀ v, v ∈ visited → v ∈ visited') ∧
        (∀ v, v ∈ visited → dist'.getD v 0 = dist.getD v 0) ∧
        (∀ x, x ∈ ns → x ∈ visited' ∧ dist'.getD x 0 ≤ dcur + 1) ∧
        visited'.length + queue.length = visited.length + queue'.length ∧
        visited.length ≤ visited'.length := by
  induction ns with
  | nil =>
    intro visited dist queue inv _ _
    exact ⟨visited, dist, queue, rfl, inv, fun v hv => hv, fun v _ => rfl,
      fun x hx => absurd hx (List.not_mem_nil x), by omega, le_refl _⟩
  | cons nb rest ih =>
    intro visited dist queue inv hns hnsn
    by_cases hmem : nb ∈ visited
    · -- already visited: skip
      have heq : bfsScan current (nb :: rest) visited dist queue
          = bfsScan current rest visited dist queue := by
        rw [bfsScan, if_pos hmem]
      obtain ⟨V', D', Q', hrun, inv', hmono, hpres, hrest, hbook, hvlen⟩ :=
        ih visited dist queue inv (fun x hx => hns x (List.mem_cons_of_mem _ hx))
          (fun x hx => hnsn x (List.mem_cons_of_mem _ hx))
      refine ⟨V', D', Q', heq ▸ hrun, inv', hmono, hpres, ?_, hbook, hvlen⟩
      intro x hx
      rcases List.mem_cons.mp hx with rfl | hx'
      · exact ⟨hmono x hmem, by rw [hpres x hmem]; exact inv.hAcur x hmem⟩
      · exact hrest x hx'
    · -- new node: push
      have hcurn : current < n := inv.hvn current inv.hcur
      have hget : dist.get? current = some dcur := by
        rw [get?_eq_some_getD dist current (by rw [inv.hlen]; exact hcurn), inv.hdcur]
      have hnbn : nb < n := hnsn nb (List.mem_cons_self _ _)
      have hlt : nb < dist.length := by rw [inv.hlen]; exact hnbn
      have heq : bfsScan current (nb :: rest) visited dist queue
          = bfsScan current rest (nb :: visited) (dist.set nb (dcur + 1))
              (queue ++ [nb]) := by
        rw [bfsScan, if_neg hmem, hget]
        exact if_pos hlt
      have hnbne : ∀ v, v ∈ visited → v ≠ nb := fun v hv hc => hmem (hc ▸ hv)
      have hpres0 : ∀ v, v ∈ visited →
          (dist.set nb (dcur + 1)).getD v 0 = dist.getD v 0 := by
        intro v hv
        exact getD_set_ne dist nb v (dcur + 1) (fun hc => hmem (hc ▸ hv))
      have hnbval : (dist.set nb (dcur + 1)).getD nb 0 = dcur + 1 :=
        getD_set_self dist nb (dcur + 1) hlt
      have hdcurlt : dcur < visited.length := by
        have := (inv.hsound current inv.hcur).2
        rw [inv.hdcur] at this
        exact this
      have inv' : ScanInv g start n current dcur (nb :: visited)
          (dist.set nb (dcur + 1)) (queue ++ [nb]) := by
        refine
          { hlen := by rw [List.length_set]; exact inv.hlen
            hvnd := List.nodup_cons.mpr ⟨hmem, inv.hvnd⟩
            hqnd := ?_
            hqv := ?_
            hvn := ?_
            hstart := List.mem_cons_of_mem _ inv.hstart
            hs0 := by rw [hpres0 start inv.hstart]; exact inv.hs0
            hcur := List.mem_cons_of_mem _ inv.hcur
            hdcur := by rw [hpres0 current inv.hcur]; exact inv.hdcur
            hcurnq := ?_
            hsound := ?_
            hmax := ?_
            hsorted := ?_
            hqlb := ?_
            hqub := ?_
            hAcur := ?_
            hproc := ?_ }
        · refine List.nodup_append.mpr ⟨inv.hqnd, List.nodup_singleton nb, ?_⟩
          intro a ha ha'
          rw [List.mem_singleton] at ha'
          exact hmem (ha' ▸ inv.hqv a ha)
        · intro x hx
          rcases List.mem_append.mp hx with hx' | hx'
          · exact List.mem_cons_of_mem _ (inv.hqv x hx')
          · rw [List.mem_singleton] at hx'
            exact hx' ▸ List.mem_cons_self _ _
        · intro v hv
          rcases List.mem_cons.mp hv with rfl | hv'
          · exact hnbn
          · exact inv.hvn v hv'
        · intro hc
          rcases List.mem_append.mp hc with hc' | hc'
          · exact inv.hcurnq hc'
          · rw [List.mem_singleton] at hc'
            exact hmem (hc' ▸ inv.hcur)
        · intro v hv
          rcases List.mem_cons.mp hv with rfl | hv'
          · refine ⟨?_, ?_⟩
            · rw [hnbval]
              have hr : reaches g start current dcur := by
                have := (inv.hsound current inv.hcur).1
                rwa [inv.hdcur] at this
              exact reaches.step hr (hns v (List.mem_cons_self _ _))
            · rw [hnbval, List.length_cons]
              omega
          · refine ⟨?_, ?_⟩
            · rw [hpres0 v hv']
              exact (inv.hsound v hv').1
            · rw [hpres0 v hv', List.length_cons]
              exact Nat.lt_succ_of_lt (inv.hsound v hv').2
        · intro v hv hvn'
          have hvnb : v ≠ nb := fun hc => hv (hc ▸ List.mem_cons_self _ _)
          have hvv : v ∉ visited := fun hc => hv (List.mem_cons_of_mem _ hc)
          rw [getD_set_ne dist nb v (dcur + 1) (fun hc => hvnb hc.symm)]
          exact inv.hmax v hvv hvn'
        · refine List.pairwise_append.mpr ⟨?_, List.pairwise_singleton _ _, ?_⟩
          · refine inv.hsorted.imp_of_mem ?_
            intro a b ha hb hab
            rw [hpres0 a (inv.hqv a ha), hpres0 b (inv.hqv b hb)]
            exact hab
          · intro a ha b hb
            rw [List.mem_singleton] at hb
            subst hb
            rw [hpres0 a (inv.hqv a ha), hnbval]
            exact inv.hqub a ha
        · intro u hu
          rcases List.mem_append.mp hu with hu' | hu'
          · rw [hpres0 u (inv.hqv u hu')]
            exact inv.hqlb u hu'
          · rw [List.mem_singleton] at hu'
            subst hu'
            rw [hnbval]
            omega
        · intro u hu
          rcases List.mem_append.mp hu with hu' | hu'
          · rw [hpres0 u (inv.hqv u hu')]
            exact inv.hqub u hu'
          · rw [List.mem_singleton] at hu'
            subst hu'
            rw [hnbval]
        · intro v hv
          rcases List.mem_cons.mp hv with rfl | hv'
          · rw [hnbval]
          · rw [hpres0 v hv']
            exact inv.hAcur v hv'
        · intro u hu hunq hune
          have hunb : u ≠ nb := by
            intro hc
            refine hunq ?_
            rw [hc]
            exact List.mem_append_right _ (List.mem_singleton_self nb)
          have hu' : u ∈ visited := by
            rcases List.mem_cons.mp hu with rfl | h
            · exact absurd rfl hunb
            · exact h
          have hunq' : u ∉ queue := fun hc => hunq (List.mem_append_left _ hc)
          intro v hv
          obtain ⟨hv1, hv2⟩ := inv.hproc u hu' hunq' hune v hv
          refine ⟨List.mem_cons_of_mem _ hv1, ?_⟩
          rw [hpres0 v hv1, hpres0 u hu']
          exact hv2
      obtain ⟨V', D', Q', hrun, invf, hmono, hpres, hrest, hbook, hvlen⟩ :=
        ih (nb :: visited) (dist.set nb (dcur + 1)) (queue ++ [nb]) inv'
          (fun x hx => hns x (List.mem_cons_of_mem _ hx))
          (fun x hx => hnsn x (List.mem_cons_of_mem _ hx))
      refine ⟨V', D', Q', heq ▸ hrun, invf, ?_, ?_, ?_, ?_, ?_⟩
      · intro v hv
        exact hmono v (List.mem_cons_of_mem _ hv)
      · intro v hv
        rw [hpres v (List.mem_cons_of_mem _ hv), hpres0 v hv]
      · intro x hx
        rcases List.mem_cons.mp hx with rfl | hx'
        · refine ⟨hmono x (List.mem_cons_self _ _), ?_⟩
          rw [hpres x (List.mem_cons_self _ _), hnbval]
        · exact hrest x hx'
      · have h1 : (nb :: visited).length = visited.length + 1 := List.length_cons nb visited
        have h2 : (queue ++ [nb]).length = queue.length + 1 := by simp
        omega
      · exact le_trans (by simp) hvlen

theorem bfsLoop_spec (g : Graph) (start n : Nat)
    (hids : ∀ x, x ∈ g.allIds → x < n) :
    ∀ fuel visited dist queue,
      BfsInv g start n visited dist queue →
      queue.length + (n - visited.length) < fuel →
      ∃ dist' visited',
        bfsLoop g fuel visited dist queue = some dist' ∧
        BfsInv g start n visited' dist' [] := by
  intro fuel
  induction fuel with
  | zero =>
    intro visited dist queue _ hf
    omega
  | succ fuel ih =>
    intro visited dist queue inv hf
    cases queue with
    | nil => exact ⟨dist, visited, rfl, inv⟩
    | cons current rest =>
      have hcur : current ∈ visited := inv.hqv current (List.mem_cons_self _ _)
      have hcurrest : current ∉ rest := (List.nodup_cons.mp inv.hqnd).1
      have hsortcons := List.pairwise_cons.mp inv.hsorted
      have sinv : ScanInv g start n current (dist.getD current 0) visited dist rest :=
        { hlen := inv.hlen
          hvnd := inv.hvnd
          hqnd := (List.nodup_cons.mp inv.hqnd).2
          hqv := fun x hx => inv.hqv x (List.mem_cons_of_mem _ hx)
          hvn := inv.hvn
          hstart := inv.hstart
          hs0 := inv.hs0
          hcur := hcur
          hdcur := rfl
          hcurnq := hcurrest
          hsound := inv.hsound
          hmax := inv.hmax
          hsorted := hsortcons.2
          hqlb := fun u hu => hsortcons.1 u hu
          hqub := fun u hu => inv.hspread current (List.mem_cons_self _ _) u
            (List.mem_cons_of_mem _ hu)
          hAcur := fun v hv => inv.hA v hv current (List.mem_cons_self _ _)
          hproc := fun u hu hur hune v hv => inv.hproc u hu
            (fun hc => (List.mem_cons.mp hc).elim hune hur) v hv }
      obtain ⟨V', D', Q', hrun, sinv', hmono, hpres, hnsc, hbook, hvlen⟩ :=
        bfsScan_spec g start n current (dist.getD current 0) (g.neighbors current)
          visited dist rest sinv (fun x hx => hx)
          (fun x hx => hids x (mem_allIds_of_neighbor g current x hx))
      have heq : bfsLoop g (fuel + 1) visited dist (current :: rest)
          = bfsLoop g fuel V' D' Q' := by
        rw [bfsLoop, hrun]
      have binv : BfsInv g start n V' D' Q' :=
        { hlen := sinv'.hlen
          hvnd := sinv'.hvnd
          hqnd := sinv'.hqnd
          hqv := sinv'.hqv
          hvn := sinv'.hvn
          hstart := sinv'.hstart
          hs0 := sinv'.hs0
          hsound := sinv'.hsound
          hmax := sinv'.hmax
          hsorted := sinv'.hsorted
          hspread := by
            intro a ha b hb
            have h1 := sinv'.hqub b hb
            have h2 := sinv'.hqlb a ha
            omega
          hA := by
            intro v hv u hu
            have h1 := sinv'.hAcur v hv
            have h2 := sinv'.hqlb u hu
            omega
          hproc := by
            intro u hu huq
            by_cases hue : u = current
            · subst hue
              intro v hv
              have := hnsc v hv
              refine ⟨this.1, ?_⟩
              rw [sinv'.hdcur]
              exact this.2
            · exact sinv'.hproc u hu huq hue }
      have hVn : V'.length ≤ n :=
        nodup_bounded_length V' n sinv'.hvnd sinv'.hvn
      have hvisn : visited.length ≤ n :=
        nodup_bounded_length visited n inv.hvnd inv.hvn
      have hrl : (current :: rest).length = rest.length + 1 := List.length_cons _ _
      have hmeas : Q'.length + (n - V'.length) < fuel := by
        rw [hrl] at hf
        omega
      obtain ⟨distF, visF, hrunF, invF⟩ := ih V' D' Q' binv hmeas
      exact ⟨distF, visF, heq ▸ hrunF, invF⟩

theorem bfs_final_closure (g : Graph) (start n : Nat) (visited dist : List Nat)
    (inv : BfsInv g start n visited dist []) :
    ∀ v k, reaches g start v k → v ∈ visited ∧ dist.getD v 0 ≤ k := by
  intro v k h
  induction h with
  | refl => exact ⟨inv.hstart, by rw [inv.hs0]⟩
  | step hr he ih =>
    obtain ⟨hu, hku⟩ := ih
    obtain ⟨hv, hvd⟩ := inv.hproc _ hu (List.not_mem_nil _) _ he
    exact ⟨hv, by omega⟩

theorem bfs_spec (g : Graph) (start : Nat)
    (hids : ∀ x, x ∈ g.allIds → x < g.num_nodes)
    (hstart : start < g.num_nodes) :
    ∃ dist, bfs_shortest_paths g start = some dist ∧
      dist.length = g.num_nodes ∧ dist.getD start 0 = 0 ∧
      ∀ v, v < g.num_nodes →
        (reachable g start v →
          reaches g start v (dist.getD v 0) ∧
          (∀ k, reaches g start v k → dist.getD v 0 ≤ k) ∧
          dist.getD v 0 < g.num_nodes) ∧
        (¬ reachable g start v → dist.getD v 0 = USIZE_MAX) := by
  have hlen0 : ((List.replicate g.num_nodes USIZE_MAX).set start 0).length
      = g.num_nodes := by simp
  have hval0 : ((List.replicate g.num_nodes USIZE_MAX).set start 0).getD start 0
      = 0 := getD_set_self _ start 0 (by simpa using hstart)
  have inv0 : BfsInv g start g.num_nodes [start]
      ((List.replicate g.num_nodes USIZE_MAX).set start 0) [start] :=
    { hlen := hlen0
      hvnd := List.nodup_singleton start
      hqnd := List.nodup_singleton start
      hqv := fun x hx => hx
      hvn := by
        intro v hv
        rw [List.mem_singleton] at hv
        exact hv ▸ hstart
      hstart := List.mem_singleton_self start
      hs0 := hval0
      hsound := by
        intro v hv
        rw [List.mem_singleton] at hv
        subst hv
        rw [hval0]
        exact ⟨reaches.refl, by simp⟩
      hmax := by
        intro v hv hvn
        rw [List.mem_singleton] at hv
        rw [getD_set_ne _ start v 0 (fun hc => hv hc.symm)]
        exact getD_replicate_lt USIZE_MAX g.num_nodes v hvn
      hsorted := List.pairwise_singleton _ _
      hspread := by
        intro a ha b hb
        rw [List.mem_singleton] at ha hb
        subst ha; subst hb
        exact Nat.le_succ _
      hA := by
        intro v hv u hu
        rw [List.mem_singleton] at hv hu
        subst hv; subst hu
        exact Nat.le_succ _
      hproc := by
        intro u hu huq
        rw [List.mem_singleton] at hu
        exact absurd (hu ▸ List.mem_singleton_self u) huq }
  have hmeas : [start].length + (g.num_nodes - [start].length) < g.num_nodes + 1 := by
    simp only [List.length_singleton]
    omega
  obtain ⟨dist, visF, hrun, invF⟩ :=
    bfsLoop_spec g start g.num_nodes hids (g.num_nodes + 1) [start]
      ((List.replicate g.num_nodes USIZE_MAX).set start 0) [start] inv0 hmeas
  have hbfs : bfs_shortest_paths g start = some dist := by
    rw [bfs_shortest_paths]
    simp only [if_pos hstart]
    exact hrun
  refine ⟨dist, hbfs, invF.hlen, invF.hs0, ?_⟩
  intro v hv
  constructor
  · rintro ⟨k, hk⟩
    have hvis := (bfs_final_closure g start g.num_nodes visF dist invF v k hk).1
    refine ⟨(invF.hsound v hvis).1, ?_, ?_⟩
    · intro k' hk'
      exact (bfs_final_closure g start g.num_nodes visF dist invF v k' hk').2
    · have h1 := (invF.hsound v hvis).2
      have h2 : visF.length ≤ g.num_nodes :=
        nodup_bounded_length visF g.num_nodes invF.hvnd invF.hvn
      omega
  · intro hnr
    have hvnot : v ∉ visF := fun hc => hnr ⟨dist.getD v 0, (invF.hsound v hc).1⟩
    exact invF.hmax v hvnot hv

theorem bfsScan_all_visited (current : Nat) (ns : List Nat) :
    ∀ visited dist queue, (∀ x, x ∈ ns → x ∈ visited) →
    bfsScan current ns visited dist queue = some (visited, dist, queue) := by
  induction ns with
  | nil => intro visited dist queue _; rfl
  | cons nb rest ih =>
    intro visited dist queue h
    rw [bfsScan, if_pos (h nb (List.mem_cons_self _ _))]
    exact ih visited dist queue (fun x hx => h x (List.mem_cons_of_mem _ hx))

/-- C3 as stated is false: `start < num_nodes()` does not prevent the
out-of-bounds write.  The graph built from `add_edge(0, 5)` has two nodes,
so `start = 0` satisfies the precondition, but BFS sizes the distance
array to 2 and then writes `distance[5]`, which panics. -/
theorem claim_C3_counterexample :
    bfs_shortest_paths (buildGraph [(0, 5)]) 0 = none ∧
    0 < (buildGraph [(0, 5)]).num_nodes := by
  decide

/-- C3 (amended): when additionally every node identifier occurring in the
graph (key or neighbor entry) is below `num_nodes()`, BFS from any
`start < num_nodes()` completes without error: no index is out of bounds
and a distance array is returned. -/
theorem claim_C3_amended_no_panic (g : Graph) (start : Nat)
    (hids : ∀ x, x ∈ g.allIds → x < g.num_nodes)
    (hstart : start < g.num_nodes) :
    ∃ dist, bfs_shortest_paths g start = some dist := by
  obtain ⟨dist, hrun, _⟩ := bfs_spec g start hids hstart
  exact ⟨dist, hrun⟩

theorem claim_C3_witness :
    ∃ dist, bfs_shortest_paths (buildGraph [(0, 1)]) 0 = some dist :=
  claim_C3_amended_no_panic (buildGraph [(0, 1)]) 0 (by decide) (by decide)

/-- C1 as stated is false for the same reason as C3: with the spec's BFS
precondition `start < num_nodes()` alone, `bfs_shortest_paths` need not
return an array at all — on the graph built from `add_edge(1, 3)` with
`start = 1` it panics writing `distance[3]`. -/
theorem claim_C1_counterexample :
    bfs_shortest_paths (buildGraph [(1, 3)]) 1 = none ∧
    1 < (buildGraph [(1, 3)]).num_nodes := by
  decide

/-- C1 (amended): if every node identifier occurring in the graph is below
`num_nodes()` (as for the target edge-list dataset), and
`start < num_nodes() ≤ usize::MAX`, then BFS returns an array of length
`num_nodes()` in which index `start` holds 0, every index reachable from
`start` holds the minimum number of edges on a walk from `start` to it
(a value strictly below the sentinel), and every unreachable index holds
the sentinel `usize::MAX`. -/
theorem claim_C1_amended_bfs_correct (g : Graph) (start : Nat)
    (hids : ∀ x, x ∈ g.allIds → x < g.num_nodes)
    (hstart : start < g.num_nodes)
    (hmaxn : g.num_nodes ≤ USIZE_MAX) :
    ∃ dist, bfs_shortest_paths g start = some dist ∧
      dist.length = g.num_nodes ∧
      dist.getD start 0 = 0 ∧
      ∀ v, v < g.num_nodes →
        (reachable g start v →
          reaches g start v (dist.getD v 0) ∧
          (∀ k, reaches g start v k → dist.getD v 0 ≤ k) ∧
          dist.getD v 0 < USIZE_MAX) ∧
        (¬ reachable g start v → dist.getD v 0 = USIZE_MAX) := by
  obtain ⟨dist, hrun, hlen, hs0, hmain⟩ := bfs_spec g start hids hstart
  refine ⟨dist, hrun, hlen, hs0, ?_⟩
  intro v hv
  refine ⟨?_, (hmain v hv).2⟩
  intro hr
  obtain ⟨h1, h2, h3⟩ := (hmain v hv).1 hr
  exact ⟨h1, h2, by omega⟩

theorem claim_C1_witness :
    ∃ dist, bfs_shortest_paths (buildGraph [(0, 1), (1, 2), (2, 0)]) 0 = some dist ∧
      dist.length = (buildGraph [(0, 1), (1, 2), (2, 0)]).num_nodes ∧
      dist.getD 0 0 = 0 ∧
      ∀ v, v < (buildGraph [(0, 1), (1, 2), (2, 0)]).num_nodes →
        (reachable (buildGraph [(0, 1), (1, 2), (2, 0)]) 0 v →
          reaches (buildGraph [(0, 1), (1, 2), (2, 0)]) 0 v (dist.getD v 0) ∧
          (∀ k, reaches (buildGraph [(0, 1), (1, 2), (2, 0)]) 0 v k →
            dist.getD v 0 ≤ k) ∧
          dist.getD v 0 < USIZE_MAX) ∧
        (¬ reachable (buildGraph [(0, 1), (1, 2), (2, 0)]) 0 v →
          dist.getD v 0 = USIZE_MAX) :=
  claim_C1_amended_bfs_correct (buildGraph [(0, 1), (1, 2), (2, 0)]) 0
    (by decide) (by decide) (by decide)

/-- C2 as stated is false on the empty graph: `bfs_shortest_paths` sizes
the distance array to 0 and then writes `distance[start]`, which panics,
so `average_shortest_path_length` panics instead of returning 0.0. -/
theorem claim_C2_counterexample :
    average_shortest_path_length Graph.new 0 = none := by
  rfl

/-- C2 (amended): for every graph and start node with
`start < num_nodes()` from which no other node is reachable,
`average_shortest_path_length` returns 0.0; on the empty graph (and any
start out of range) the BFS indexing panics instead. -/
theorem claim_C2_amended_average_zero (g : Graph) (start : Nat)
    (hstart : start < g.num_nodes)
    (hiso : ∀ v, reachable g start v → v = start) :
    average_shortest_path_length g start = some 0 := by
  have hnb : ∀ x, x ∈ g.neighbors start → x ∈ [start] := by
    intro x hx
    rw [List.mem_singleton]
    exact hiso x ⟨1, reaches.step reaches.refl hx⟩
  obtain ⟨m, hm⟩ : ∃ m, g.num_nodes = m + 1 := ⟨g.num_nodes - 1, by omega⟩
  have hscan : bfsScan start (g.neighbors start) [start]
      ((List.replicate g.num_nodes USIZE_MAX).set start 0) []
      = some ([start], (List.replicate g.num_nodes USIZE_MAX).set start 0, []) :=
    bfsScan_all_visited start (g.neighbors start) [start] _ [] hnb
  have hbfs : bfs_shortest_paths g start
      = some ((List.replicate g.num_nodes USIZE_MAX).set start 0) := by
    rw [bfs_shortest_paths]
    simp only [if_pos hstart]
    have h1 : bfsLoop g (g.num_nodes + 1) [start]
        ((List.replicate g.num_nodes USIZE_MAX).set start 0) [start]
        = match bfsScan start (g.neighbors start) [start]
            ((List.replicate g.num_nodes USIZE_MAX).set start 0) [] with
          | none => none
          | some (v', d', q') => bfsLoop g g.num_nodes v' d' q' := rfl
    rw [h1, hscan]
    rw [hm]
    rfl
  rw [average_shortest_path_length, hbfs, Option.map_some']
  have hfil : ((List.replicate g.num_nodes USIZE_MAX).set start 0).filter
      (fun d => d ≠ USIZE_MAX ∧ d ≠ 0) = [] := by
    rw [List.filter_eq_nil_iff]
    intro a ha
    rcases List.mem_or_eq_of_mem_set ha with h | h
    · have ha' : a = USIZE_MAX := List.eq_of_mem_replicate h
      simp [ha']
    · simp [h]
  simp only [hfil, List.length_nil, eq_self_iff_true, if_true]

theorem claim_C2_witness :
    average_shortest_path_length (buildGraph [(0, 0)]) 0 = some 0 := by
  refine claim_C2_amended_average_zero (buildGraph [(0, 0)]) 0 (by decide) ?_
  intro v hv
  obtain ⟨k, hk⟩ := hv
  induction hk with
  | refl => rfl
  | step hr he ih =>
    rw [hasEdge, ih] at he
    have hnbeq : (buildGraph [(0, 0)]).neighbors 0 = [0, 0] := by decide
    rw [hnbeq] at he
    rcases List.mem_cons.mp he with h | h
    · exact h
    · rw [List.mem_singleton] at h
      exact h

end DS210
